import Mathlib

/-!
Verification of the weighted-Lloyd stippling engine in src/script.js.

The embedding uses exact rational arithmetic (ℚ) for coordinates, densities
and accumulation buffers.  Machine randomness (Math.random) is modelled as an
explicit stream of rationals rs : ℕ → ℚ together with a cursor, and the
animation-frame scheduler as an explicit state machine.
-/

namespace Stippling

/-- The density grid built in handleFiles: dimensions and a row-major array of
weights, read through index arithmetic exactly as the source does. -/
structure Field where
  width : ℕ
  height : ℕ
  density : ℕ → ℚ

/-- Squared Euclidean distance between two points, as dx*dx + dy*dy
in the source. -/
def sqDist (p q : ℚ × ℚ) : ℚ :=
  (p.1 - q.1) * (p.1 - q.1) + (p.2 - q.2) * (p.2 - q.2)

/-- Modelled from the spec: the d3-delaunay point-location query
delaunay.find(x, y, hint) is an external library call whose code is not in
src/.  Per the SiteIndex contract it returns the index of the nearest site to
the query point, ties broken by lowest site index, and the hint argument only
accelerates the search without changing the answer; the hint parameter is
therefore dead in the model. -/
def find (pts : List (ℚ × ℚ)) (x y : ℚ) (_hint : ℕ) : ℕ :=
  (List.range pts.length).foldl
    (fun best i =>
      if sqDist (pts.getD i (0, 0)) (x, y) < sqDist (pts.getD best (0, 0)) (x, y)
      then i else best) 0

/-- Accumulation state of the pixel sweep in animate: the newPoints coordinate
sums, the weights array, and the running nearest-site hint nextIndex. -/
structure SweepState where
  sx : ℕ → ℚ
  sy : ℕ → ℚ
  w : ℕ → ℚ
  hint : ℕ

/-- Initial sweep state: zeroed Float64Array buffers and nextIndex = 0. -/
def initSweep : SweepState :=
  ⟨fun _ => 0, fun _ => 0, fun _ => 0, 0⟩

/-- All pixel locations (x, y) in raster order: y outer loop, x inner loop. -/
def rasterLocs (W H : ℕ) : List (ℕ × ℕ) :=
  (List.range H).flatMap fun y => (List.range W).map fun x => (x, y)

/-- Density read of the sweep at pixel (x, y): density[y * width + x]. -/
def locWeight (F : Field) (loc : ℕ × ℕ) : ℚ :=
  F.density (loc.2 * F.width + loc.1)

/-- One pixel of the accumulation loop in animate: read the density at
y*width + x, skip when it is ≤ 0, otherwise locate the nearest site with the
hinted query and add x*w, y*w and w to that site, updating the hint. -/
def sweepStep (F : Field) (pts : List (ℚ × ℚ)) (s : SweepState) (loc : ℕ × ℕ) :
    SweepState :=
  if locWeight F loc ≤ 0 then s
  else
    let i := find pts (loc.1 : ℚ) (loc.2 : ℚ) s.hint
    { sx := Function.update s.sx i (s.sx i + (loc.1 : ℚ) * locWeight F loc)
      sy := Function.update s.sy i (s.sy i + (loc.2 : ℚ) * locWeight F loc)
      w := Function.update s.w i (s.w i + locWeight F loc)
      hint := i }

/-- The full pixel sweep of one animate call. -/
def sweep (F : Field) (pts : List (ℚ × ℚ)) : SweepState :=
  (rasterLocs F.width F.height).foldl (sweepStep F pts) initSweep

/-- The relaxation update of one site: a site with positive accumulated
weight moves to (sumX / w, sumY / w); otherwise it keeps its position. -/
def relaxSite (s : SweepState) (i : ℕ) (p : ℚ × ℚ) : ℚ × ℚ :=
  if 0 < s.w i then (s.sx i / s.w i, s.sy i / s.w i) else p

/-- The convergence value maxDistMoved computed by the source: a fold over the
site indices that considers only sites with positive accumulated weight. -/
def maxDistMoved (s : SweepState) (pts : List (ℚ × ℚ)) : ℚ :=
  (List.range pts.length).foldl
    (fun m i =>
      if 0 < s.w i then
        max m (sqDist (pts.getD i (0, 0)) (relaxSite s i (pts.getD i (0, 0))))
      else m) 0

/-- One iteration of animate (steps 1 to 3: build the index, sweep the pixels,
relax the sites): returns the updated site list and maxDistMoved. -/
def animateIteration (F : Field) (pts : List (ℚ × ℚ)) : List (ℚ × ℚ) × ℚ :=
  let s := sweep F pts
  ((List.range pts.length).map fun i => relaxSite s i (pts.getD i (0, 0)),
   maxDistMoved s pts)

/-- Pixel index computed from a real-valued sample point during rejection
sampling: Math.floor(y) * width + Math.floor(x). -/
def sampleIdx (F : Field) (x y : ℚ) : ℕ :=
  (⌊y⌋).toNat * F.width + (⌊x⌋).toNat

/-- The do-while rejection-sampling loop that places one site in
startSimulation, run against an explicit random stream rs with cursor k.
Each attempt draws x, y and an acceptance threshold; the point is kept when
the threshold draw is not greater than the density at the sampled pixel.
The loop in the source has no retry bound, so the model carries explicit
fuel and answers none when the loop is still running after fuel attempts;
a return value also carries the advanced stream cursor. -/
def sampleSiteAux (F : Field) (rs : ℕ → ℚ) : ℕ → ℕ → Option (ℚ × ℚ × ℕ)
  | 0, _ => none
  | fuel + 1, k =>
    let x := rs k * (F.width : ℚ)
    let y := rs (k + 1) * (F.height : ℚ)
    let d := F.density (sampleIdx F x y)
    if d < rs (k + 2) then sampleSiteAux F rs fuel (k + 3)
    else some (x, y, k + 3)

/-- The initialization loop of startSimulation: place n sites in order,
threading the random-stream cursor; none as soon as one site ran out of
fuel. -/
def samplePoints (F : Field) (rs : ℕ → ℚ) (fuel : ℕ) :
    ℕ → ℕ → Option (List (ℚ × ℚ) × ℕ)
  | 0, k => some ([], k)
  | n + 1, k =>
    match sampleSiteAux F rs fuel k with
    | none => none
    | some (x, y, k1) =>
      match samplePoints F rs fuel n k1 with
      | none => none
      | some (ps, k2) => some ((x, y) :: ps, k2)

/-- Observable outcome of a startSimulation call: the freshly built points
array, the isRunning flag, and whether an animation frame was scheduled
(animate is invoked synchronously and always ends in
requestAnimationFrame). -/
structure StartResult where
  points : List (ℚ × ℚ)
  isRunning : Bool
  scheduledNext : Bool
  deriving DecidableEq

/-- Control flow of startSimulation: return early when no image is loaded,
otherwise rebuild the points array by rejection sampling (a loop that runs
n.toNat times, hence zero times for n ≤ 0 since the source never validates
the parsed point count), set isRunning and call animate, which schedules the
next frame. -/
def startSimulation (F : Field) (n : ℤ) (rs : ℕ → ℚ) (fuel : ℕ) :
    Option StartResult :=
  if F.width = 0 ∨ F.height = 0 then none
  else
    match samplePoints F rs fuel n.toNat 0 with
    | none => none
    | some (ps, _) => some ⟨ps, true, true⟩

/-- Contribution of one pixel to the total accumulated weight: 0 when the
sweep skips it, its density otherwise. -/
def locMass (F : Field) (loc : ℕ × ℕ) : ℚ :=
  if locWeight F loc ≤ 0 then 0 else locWeight F loc

/-- Contribution of one pixel to the total accumulated x-moment. -/
def locMX (F : Field) (loc : ℕ × ℕ) : ℚ :=
  if locWeight F loc ≤ 0 then 0 else (loc.1 : ℚ) * locWeight F loc

/-- Contribution of one pixel to the total accumulated y-moment. -/
def locMY (F : Field) (loc : ℕ × ℕ) : ℚ :=
  if locWeight F loc ≤ 0 then 0 else (loc.2 : ℚ) * locWeight F loc

/-- Sum of the Field weights over the locations the sweep does not skip. -/
def fieldMass (F : Field) : ℚ :=
  ((rasterLocs F.width F.height).map (locMass F)).sum

/-- Total x-moment of the Field over the locations the sweep does not skip. -/
def fieldMX (F : Field) : ℚ :=
  ((rasterLocs F.width F.height).map (locMX F)).sum

/-- Total y-moment of the Field over the locations the sweep does not skip. -/
def fieldMY (F : Field) : ℚ :=
  ((rasterLocs F.width F.height).map (locMY F)).sum

/-- A point lies in the half-open domain [0, width) × [0, height). -/
def inDomain (F : Field) (p : ℚ × ℚ) : Prop :=
  0 ≤ p.1 ∧ p.1 < (F.width : ℚ) ∧ 0 ≤ p.2 ∧ p.2 < (F.height : ℚ)

instance (F : Field) (p : ℚ × ℚ) : Decidable (inDomain F p) := by
  unfold inDomain; infer_instance

/-- An identically zero 1×1 field: the degenerate all-white image. -/
def zeroField : Field := ⟨1, 1, fun _ => 0⟩

/-- A random stream that always draws 1/2. -/
def halfStream : ℕ → ℚ := fun _ => (1 : ℚ) / 2

/-- The 10×10 field with every weight 1.0 from the scenario in the spec. -/
def onesField10 : Field := ⟨10, 10, fun _ => 1⟩

/-- Convergence metric as the spec words it: the maximum over all N sites of
the squared Euclidean displacement between old and new position. -/
def specMetric (old new : List (ℚ × ℚ)) : ℚ :=
  (List.range old.length).foldl
    (fun m i => max m (sqDist (old.getD i (0, 0)) (new.getD i (0, 0)))) 0

/-- Modelled from the spec: the comparison sweep that visits every domain
location with no zero-weight skip, accumulating weight·x, weight·y and
weight at the nearest site of each location.  It exists only to be compared
with sweep, whose skip the spec calls a pure optimization. -/
def sweepStepFull (F : Field) (pts : List (ℚ × ℚ)) (s : SweepState) (loc : ℕ × ℕ) :
    SweepState :=
  let i := find pts (loc.1 : ℚ) (loc.2 : ℚ) s.hint
  { sx := Function.update s.sx i (s.sx i + (loc.1 : ℚ) * locWeight F loc)
    sy := Function.update s.sy i (s.sy i + (loc.2 : ℚ) * locWeight F loc)
    w := Function.update s.w i (s.w i + locWeight F loc)
    hint := i }

/-- Modelled from the spec: the full sweep over every domain location. -/
def sweepFull (F : Field) (pts : List (ℚ × ℚ)) : SweepState :=
  (rasterLocs F.width F.height).foldl (sweepStepFull F pts) initSweep

/-- State of the animation-frame scheduling protocol around startSimulation
and animate.  gen is a ghost counter of startSimulation calls (the run a
piece of work belongs to); pending is the at most one scheduled frame
callback together with the run that scheduled it; animationId mirrors the
variable of the source holding the last requestAnimationFrame handle;
fired logs, for every frame callback that actually ran, the run that
scheduled it alongside the run current when it ran. -/
structure DriverState where
  gen : ℕ
  isRunning : Bool
  pending : Option (ℕ × ℕ)
  animationId : ℕ
  nextId : ℕ
  fired : List (ℕ × ℕ)
  deriving DecidableEq

/-- The state before any startSimulation call. -/
def initDriver : DriverState := ⟨0, false, none, 0, 0, []⟩

/-- Effect of cancelAnimationFrame h on the scheduler queue: the pending
callback is removed when its handle matches h. -/
def cancelFrame (p : Option (ℕ × ℕ)) (h : ℕ) : Option (ℕ × ℕ) :=
  match p with
  | none => none
  | some (i, t) => if i = h then none else some (i, t)

/-- Scheduling effect of one animate call: when isRunning it performs the
iteration for the current run (recorded by the caller) and ends in
requestAnimationFrame, which stores a fresh handle and leaves exactly one
pending callback tagged with the current run; when not running it returns
at once. -/
def animateSchedule (s : DriverState) : DriverState :=
  if s.isRunning then
    { s with pending := some (s.nextId, s.gen)
             animationId := s.nextId
             nextId := s.nextId + 1 }
  else s

/-- Events of the scheduling protocol: a startSimulation call, or the host
firing the pending animation-frame callback. -/
inductive DriverEvent
  | startCall
  | frameFire

/-- One atomic event of the protocol.  startSimulation rebuilds the points,
cancels the previous pending frame via its stored handle when a run was
active, bumps the (ghost) run generation, sets isRunning and synchronously
calls animate.  A frame fire removes the callback from the queue and runs
animate, logging the pair (scheduling run, current run) of the iteration it
performs; firing with an empty queue does nothing. -/
def driverStep (s : DriverState) : DriverEvent → DriverState
  | .startCall =>
    animateSchedule
      { s with gen := s.gen + 1
               isRunning := true
               pending := if s.isRunning then cancelFrame s.pending s.animationId
                          else s.pending }
  | .frameFire =>
    match s.pending with
    | none => s
    | some (_, t) =>
      animateSchedule { s with pending := none, fired := s.fired ++ [(t, s.gen)] }

/-- States reachable from the initial state by protocol events. -/
inductive DriverReachable : DriverState → Prop
  | init : DriverReachable initDriver
  | step {s : DriverState} (h : DriverReachable s) (e : DriverEvent) :
      DriverReachable (driverStep s e)

/-- A 2×2 field with every weight 1, for concrete witnesses. -/
def onesField2 : Field := ⟨2, 2, fun _ => 1⟩

/-! Helper lemmas about the nearest-site query. -/

theorem find_hint_irrel (pts : List (ℚ × ℚ)) (x y : ℚ) (h1 h2 : ℕ) :
    find pts x y h1 = find pts x y h2 := rfl

theorem foldl_best_lt (pts : List (ℚ × ℚ)) (x y : ℚ) :
    ∀ (l : List ℕ) (b : ℕ), b < pts.length → (∀ i ∈ l, i < pts.length) →
      l.foldl
        (fun best i =>
          if sqDist (pts.getD i (0, 0)) (x, y) < sqDist (pts.getD best (0, 0)) (x, y)
          then i else best) b < pts.length := by
  intro l
  induction l with
  | nil => intro b hb _; simpa using hb
  | cons a t ih =>
    intro b hb hmem
    simp only [List.foldl_cons]
    by_cases hc :
        sqDist (pts.getD a (0, 0)) (x, y) < sqDist (pts.getD b (0, 0)) (x, y)
    · rw [if_pos hc]
      exact ih a (hmem a (by simp)) fun i hi => hmem i (by simp [hi])
    · rw [if_neg hc]
      exact ih b hb fun i hi => hmem i (by simp [hi])

theorem find_lt (pts : List (ℚ × ℚ)) (hne : pts ≠ []) (x y : ℚ) (hint : ℕ) :
    find pts x y hint < pts.length := by
  have h0 : 0 < pts.length := List.length_pos.mpr hne
  exact foldl_best_lt pts x y (List.range pts.length) 0 h0
    fun i hi => List.mem_range.mp hi

theorem find_singleton (p : ℚ × ℚ) (x y : ℚ) (hint : ℕ) :
    find [p] x y hint = 0 := by
  simp [find, List.range_succ]

/-- C1: the spec claims the per-site rejection-sampling loop is bounded by a
retry cap with a uniform-random fallback, but the do-while loop in
startSimulation has no cap at all: on an identically zero field, with any
random stream whose draws are strictly positive, the loop never accepts and
the model returns none for every amount of fuel — the source loops
forever. -/
theorem c1_sampler_unbounded_on_zero_field (F : Field) (rs : ℕ → ℚ)
    (hz : ∀ i, F.density i = 0) (hr : ∀ n, 0 < rs n) :
    ∀ fuel k, sampleSiteAux F rs fuel k = none := by
  intro fuel
  induction fuel with
  | zero => intro k; rfl
  | succ n ih =>
    intro k
    simp only [sampleSiteAux, hz]
    rw [if_pos (hr (k + 2))]
    exact ih (k + 3)

theorem c1_sampler_unbounded_witness :
    sampleSiteAux zeroField halfStream 1000 0 = none :=
  c1_sampler_unbounded_on_zero_field zeroField halfStream (fun _ => rfl)
    (fun _ => by norm_num [halfStream]) 1000 0

/-! Accumulation of a sweep with a single site: every non-skipped pixel is
assigned to site 0. -/

theorem sweep_singleton_foldl (F : Field) (p : ℚ × ℚ) :
    ∀ (locs : List (ℕ × ℕ)) (s : SweepState),
      ((locs.foldl (sweepStep F [p]) s).w 0 = s.w 0 + (locs.map (locMass F)).sum) ∧
      ((locs.foldl (sweepStep F [p]) s).sx 0 = s.sx 0 + (locs.map (locMX F)).sum) ∧
      ((locs.foldl (sweepStep F [p]) s).sy 0 = s.sy 0 + (locs.map (locMY F)).sum) := by
  intro locs
  induction locs with
  | nil => intro s; simp
  | cons a t ih =>
    intro s
    simp only [List.foldl_cons, List.map_cons, List.sum_cons]
    by_cases hw : locWeight F a ≤ 0
    · rw [sweepStep, if_pos hw]
      rcases ih s with ⟨h1, h2, h3⟩
      refine ⟨?_, ?_, ?_⟩
      · rw [h1, locMass, if_pos hw]; ring
      · rw [h2, locMX, if_pos hw]; ring
      · rw [h3, locMY, if_pos hw]; ring
    · rw [sweepStep, if_neg hw]
      simp only [find_singleton]
      rcases ih ⟨Function.update s.sx 0 (s.sx 0 + (a.1 : ℚ) * locWeight F a),
        Function.update s.sy 0 (s.sy 0 + (a.2 : ℚ) * locWeight F a),
        Function.update s.w 0 (s.w 0 + locWeight F a), 0⟩ with ⟨h1, h2, h3⟩
      refine ⟨?_, ?_, ?_⟩
      · rw [h1]; simp only [Function.update_same]
        rw [locMass, if_neg hw]; ring
      · rw [h2]; simp only [Function.update_same]
        rw [locMX, if_neg hw]; ring
      · rw [h3]; simp only [Function.update_same]
        rw [locMY, if_neg hw]; ring

theorem sweep_singleton_acc (F : Field) (p : ℚ × ℚ) :
    (sweep F [p]).w 0 = fieldMass F ∧ (sweep F [p]).sx 0 = fieldMX F ∧
      (sweep F [p]).sy 0 = fieldMY F := by
  rcases sweep_singleton_foldl F p (rasterLocs F.width F.height) initSweep with
    ⟨h1, h2, h3⟩
  refine ⟨?_, ?_, ?_⟩
  · rw [sweep, h1]; simp [initSweep, fieldMass]
  · rw [sweep, h2]; simp [initSweep, fieldMX]
  · rw [sweep, h3]; simp [initSweep, fieldMY]

/-! Sums over raster locations as double Finset sums. -/

theorem sum_map_range_eq (n : ℕ) (f : ℕ → ℚ) :
    ((List.range n).map f).sum = ∑ i in Finset.range n, f i := by
  induction n with
  | zero => simp
  | succ m ih =>
    rw [List.range_succ, List.map_append, List.sum_append, Finset.sum_range_succ,
      ih]
    simp

theorem rasterLocs_map_sum (W H : ℕ) (f : ℕ × ℕ → ℚ) :
    ((rasterLocs W H).map f).sum =
      ∑ y in Finset.range H, ∑ x in Finset.range W, f (x, y) := by
  induction H with
  | zero => simp [rasterLocs]
  | succ m ih =>
    rw [rasterLocs, List.range_succ, List.flatMap_append, List.map_append,
      List.sum_append, Finset.sum_range_succ, ← rasterLocs, ih]
    simp only [List.flatMap_cons, List.flatMap_nil, List.append_nil,
      List.map_map]
    rw [sum_map_range_eq]
    rfl

theorem fieldMass_ones10 : fieldMass onesField10 = 100 := by
  rw [fieldMass, rasterLocs_map_sum]
  norm_num [locMass, locWeight, onesField10]

theorem fieldMX_ones10 : fieldMX onesField10 = 450 := by
  rw [fieldMX, rasterLocs_map_sum]
  norm_num [locMX, locWeight, onesField10, Finset.sum_range_succ]

theorem fieldMY_ones10 : fieldMY onesField10 = 450 := by
  rw [fieldMY, rasterLocs_map_sum]
  norm_num [locMY, locWeight, onesField10, Finset.sum_range_succ]

theorem animate_ones10_singleton (p : ℚ × ℚ) :
    (animateIteration onesField10 [p]).1 = [((9 : ℚ) / 2, (9 : ℚ) / 2)] := by
  rcases sweep_singleton_acc onesField10 p with ⟨hw, hx, hy⟩
  rw [fieldMass_ones10] at hw
  rw [fieldMX_ones10] at hx
  rw [fieldMY_ones10] at hy
  have hr1 : List.range 1 = [0] := rfl
  simp only [animateIteration, List.length_cons, List.length_nil, hr1,
    List.map_cons, List.map_nil, relaxSite, hw, hx, hy]
  norm_num

/-- C2: the spec scenario claims that for the 10×10 all-ones field and N = 1
one iteration puts the site at (5.0, 5.0); the code puts it at (4.5, 4.5),
so the claim is false at this very input. -/
theorem c2_counterexample :
    (animateIteration onesField10 [((0 : ℚ), (0 : ℚ))]).1 ≠ [((5 : ℚ), (5 : ℚ))] := by
  rw [animate_ones10_singleton]
  intro h
  have h2 : ((9 : ℚ) / 2, (9 : ℚ) / 2) = ((5 : ℚ), (5 : ℚ)) := by
    exact List.head_eq_of_cons_eq h
  have : (9 : ℚ) / 2 = 5 := congrArg Prod.fst h2
  norm_num at this

/-- C2 amended: for the 10×10 all-ones field and N = 1, one iteration moves
the single site, wherever it started, to (4.5, 4.5): the sweep samples the
pixels at their integer coordinates 0..9, whose unweighted average per axis
is 4.5, not the continuous-domain centroid 5.0. -/
theorem c2_one_iteration_moves_site_to_centroid (p : ℚ × ℚ) :
    (animateIteration onesField10 [p]).1 = [((9 : ℚ) / 2, (9 : ℚ) / 2)] :=
  animate_ones10_singleton p

theorem c2_one_iteration_moves_site_to_centroid_witness :
    (animateIteration onesField10 [((3 : ℚ), (7 : ℚ))]).1 =
      [((9 : ℚ) / 2, (9 : ℚ) / 2)] :=
  c2_one_iteration_moves_site_to_centroid ((3 : ℚ), (7 : ℚ))

/-! Mass conservation of the sweep. -/

theorem sweep_mass_foldl (F : Field) (pts : List (ℚ × ℚ)) (hne : pts ≠ []) :
    ∀ (locs : List (ℕ × ℕ)) (s : SweepState),
      ∑ i in Finset.range pts.length, (locs.foldl (sweepStep F pts) s).w i =
        (∑ i in Finset.range pts.length, s.w i) + (locs.map (locMass F)).sum := by
  intro locs
  induction locs with
  | nil => intro s; simp
  | cons a t ih =>
    intro s
    simp only [List.foldl_cons, List.map_cons, List.sum_cons]
    by_cases hw : locWeight F a ≤ 0
    · rw [sweepStep, if_pos hw, ih s, locMass, if_pos hw]
      ring
    · rw [sweepStep, if_neg hw]
      set i := find pts (a.1 : ℚ) (a.2 : ℚ) s.hint with hi
      have himem : i ∈ Finset.range pts.length :=
        Finset.mem_range.mpr (find_lt pts hne (a.1 : ℚ) (a.2 : ℚ) s.hint)
      rw [ih]
      have hupd :
          ∑ j in Finset.range pts.length,
              Function.update s.w i (s.w i + locWeight F a) j =
            (∑ j in Finset.range pts.length, s.w j) + locWeight F a := by
        rw [Finset.sum_update_of_mem himem, ← Finset.erase_eq,
          ← Finset.add_sum_erase _ s.w himem]
        ring
      simp only [hupd, locMass, if_neg hw]
      ring

/-- C3: mass conservation — for every field and every nonempty site list,
the sum over all sites of the accumulated per-site weight-sums equals the
sum of the field weights over the non-skipped (strictly positive-weight)
locations, exactly, in the exact rational arithmetic of the model. -/
theorem c3_mass_conservation (F : Field) (pts : List (ℚ × ℚ)) (hne : pts ≠ []) :
    ∑ i in Finset.range pts.length, (sweep F pts).w i = fieldMass F := by
  rw [sweep, sweep_mass_foldl F pts hne (rasterLocs F.width F.height) initSweep]
  simp [initSweep, fieldMass]

theorem c3_mass_conservation_witness :
    ∑ i in Finset.range ([((0 : ℚ), (0 : ℚ)), ((1 : ℚ), (1 : ℚ))].length),
        (sweep onesField2 [((0 : ℚ), (0 : ℚ)), ((1 : ℚ), (1 : ℚ))]).w i =
      fieldMass onesField2 :=
  c3_mass_conservation onesField2 [((0 : ℚ), (0 : ℚ)), ((1 : ℚ), (1 : ℚ))]
    (by simp)

/-! The relaxation update and the convergence metric. -/

theorem getD_map_range {α : Type} (g : ℕ → α) (d : α) {i n : ℕ} (h : i < n) :
    ((List.range n).map g).getD i d = g i := by
  rw [List.getD_eq_getElem?_getD,
    List.getElem?_eq_getElem (by simpa using h)]
  simp

theorem sqDist_self (p : ℚ × ℚ) : sqDist p p = 0 := by
  simp [sqDist]

theorem metric_foldl_eq (F : Field) (pts : List (ℚ × ℚ)) :
    ∀ (l : List ℕ), (∀ i ∈ l, i < pts.length) → ∀ m : ℚ, 0 ≤ m →
      l.foldl
        (fun m i =>
          if 0 < (sweep F pts).w i then
            max m (sqDist (pts.getD i (0, 0))
              (relaxSite (sweep F pts) i (pts.getD i (0, 0))))
          else m) m =
      l.foldl
        (fun m i =>
          max m (sqDist (pts.getD i (0, 0))
            ((animateIteration F pts).1.getD i (0, 0)))) m := by
  intro l
  induction l with
  | nil => intro _ m _; rfl
  | cons a t ih =>
    intro hl m hm
    have ha : a < pts.length := hl a (by simp)
    have hget : (animateIteration F pts).1.getD a (0, 0) =
        relaxSite (sweep F pts) a (pts.getD a (0, 0)) := by
      rw [animateIteration]
      exact getD_map_range _ _ ha
    simp only [List.foldl_cons, hget]
    by_cases hc : 0 < (sweep F pts).w a
    · rw [if_pos hc]
      exact ih (fun i hi => hl i (by simp [hi]))
        (max m (sqDist (pts.getD a (0, 0))
          (relaxSite (sweep F pts) a (pts.getD a (0, 0)))))
        (le_trans hm (le_max_left _ _))
    · rw [if_neg hc, relaxSite, if_neg hc, sqDist_self, max_eq_left hm]
      exact ih (fun i hi => hl i (by simp [hi])) m hm

/-- C4: one iteration behaves as specified — the updated list has one entry
per site; a site with positive accumulated weight-sum moves to
(positionSum / weightSum); a site with weight-sum 0 keeps its old position;
and the convergence value of the iteration equals the maximum over all N
sites of the squared Euclidean displacement between old and new
positions. -/
theorem c4_iteration_behaviour (F : Field) (pts : List (ℚ × ℚ)) :
    ((animateIteration F pts).1.length = pts.length) ∧
    (∀ i, i < pts.length →
      (0 < (sweep F pts).w i →
        (animateIteration F pts).1.getD i (0, 0) =
          ((sweep F pts).sx i / (sweep F pts).w i,
            (sweep F pts).sy i / (sweep F pts).w i)) ∧
      ((sweep F pts).w i = 0 →
        (animateIteration F pts).1.getD i (0, 0) = pts.getD i (0, 0))) ∧
    (animateIteration F pts).2 = specMetric pts (animateIteration F pts).1 := by
  refine ⟨by simp [animateIteration], fun i hi => ?_, ?_⟩
  · have hget : (animateIteration F pts).1.getD i (0, 0) =
        relaxSite (sweep F pts) i (pts.getD i (0, 0)) := by
      rw [animateIteration]
      exact getD_map_range _ _ hi
    constructor
    · intro hw
      rw [hget, relaxSite, if_pos hw]
    · intro hw
      rw [hget, relaxSite, if_neg (by rw [hw]; exact lt_irrefl 0)]
  · have h2 : (animateIteration F pts).2 = maxDistMoved (sweep F pts) pts := rfl
    rw [h2, maxDistMoved, specMetric]
    exact metric_foldl_eq F pts (List.range pts.length)
      (fun i hi => List.mem_range.mp hi) 0 le_rfl

theorem c4_iteration_behaviour_witness :
    (animateIteration onesField2 [((0 : ℚ), (0 : ℚ)), ((1 : ℚ), (1 : ℚ))]).1.length = 2 := by
  simpa using
    (c4_iteration_behaviour onesField2 [((0 : ℚ), (0 : ℚ)), ((1 : ℚ), (1 : ℚ))]).1

/-- C5: stranded-site policy — a site whose accumulated weight-sum is 0 has
exactly its old position after the relaxation step, both coordinates
unchanged. -/
theorem c5_stranded_site_keeps_position (F : Field) (pts : List (ℚ × ℚ)) (i : ℕ)
    (hi : i < pts.length) (hw : (sweep F pts).w i = 0) :
    (animateIteration F pts).1.getD i (0, 0) = pts.getD i (0, 0) := by
  have hget : (animateIteration F pts).1.getD i (0, 0) =
      relaxSite (sweep F pts) i (pts.getD i (0, 0)) := by
    rw [animateIteration]
    exact getD_map_range _ _ hi
  rw [hget, relaxSite, if_neg (by rw [hw]; exact lt_irrefl 0)]

theorem c5_stranded_site_witness :
    (animateIteration zeroField [((1 : ℚ) / 3, (1 : ℚ) / 2)]).1.getD 0 (0, 0) =
      ((1 : ℚ) / 3, (1 : ℚ) / 2) :=
  c5_stranded_site_keeps_position zeroField [((1 : ℚ) / 3, (1 : ℚ) / 2)] 0
    (by simp)
    (by norm_num [sweep, rasterLocs, sweepStep, initSweep, locWeight, zeroField,
      List.range_succ])

/-! Domain invariants: sampled and relaxed positions stay inside
[0, width) × [0, height). -/

theorem mem_rasterLocs {W H : ℕ} {l : ℕ × ℕ} (h : l ∈ rasterLocs W H) :
    l.1 < W ∧ l.2 < H := by
  simp only [rasterLocs, List.mem_flatMap, List.mem_map, List.mem_range] at h
  obtain ⟨y, hy, x, hx, rfl⟩ := h
  exact ⟨hx, hy⟩

theorem sampleSiteAux_inDomain (F : Field) (rs : ℕ → ℚ)
    (hW : 1 ≤ F.width) (hH : 1 ≤ F.height)
    (hrs : ∀ m, 0 ≤ rs m ∧ rs m < 1) :
    ∀ fuel k x y k1, sampleSiteAux F rs fuel k = some (x, y, k1) →
      inDomain F (x, y) := by
  have hWpos : (0 : ℚ) < (F.width : ℚ) := by
    have : (1 : ℚ) ≤ (F.width : ℚ) := by exact_mod_cast hW
    linarith
  have hHpos : (0 : ℚ) < (F.height : ℚ) := by
    have : (1 : ℚ) ≤ (F.height : ℚ) := by exact_mod_cast hH
    linarith
  intro fuel
  induction fuel with
  | zero => intro k x y k1 h; exact absurd h (by simp [sampleSiteAux])
  | succ n ih =>
    intro k x y k1 h
    rw [sampleSiteAux] at h
    by_cases hacc :
        F.density (sampleIdx F (rs k * (F.width : ℚ)) (rs (k + 1) * (F.height : ℚ)))
          < rs (k + 2)
    · rw [if_pos hacc] at h
      exact ih (k + 3) x y k1 h
    · rw [if_neg hacc] at h
      simp only [Option.some.injEq, Prod.mk.injEq] at h
      obtain ⟨hx, hy, hk⟩ := h
      subst hx
      subst hy
      refine ⟨mul_nonneg (hrs k).1 (le_of_lt hWpos), ?_,
        mul_nonneg (hrs (k + 1)).1 (le_of_lt hHpos), ?_⟩
      · calc rs k * (F.width : ℚ) < 1 * (F.width : ℚ) :=
              mul_lt_mul_of_pos_right (hrs k).2 hWpos
          _ = (F.width : ℚ) := one_mul _
      · calc rs (k + 1) * (F.height : ℚ) < 1 * (F.height : ℚ) :=
              mul_lt_mul_of_pos_right (hrs (k + 1)).2 hHpos
          _ = (F.height : ℚ) := one_mul _

theorem samplePoints_spec (F : Field) (rs : ℕ → ℚ) (fuel : ℕ)
    (hW : 1 ≤ F.width) (hH : 1 ≤ F.height)
    (hrs : ∀ m, 0 ≤ rs m ∧ rs m < 1) :
    ∀ n k ps k2, samplePoints F rs fuel n k = some (ps, k2) →
      ps.length = n ∧ ∀ j, j < ps.length → inDomain F (ps.getD j (0, 0)) := by
  intro n
  induction n with
  | zero =>
    intro k ps k2 h
    simp only [samplePoints, Option.some.injEq, Prod.mk.injEq] at h
    obtain ⟨h1, h2⟩ := h
    subst h1
    exact ⟨rfl, fun j hj => absurd hj (by simp)⟩
  | succ m ih =>
    intro k ps k2 h
    rw [samplePoints] at h
    cases hsite : sampleSiteAux F rs fuel k with
    | none => simp only [hsite] at h; exact absurd h (by simp)
    | some r =>
      obtain ⟨x, y, k1⟩ := r
      simp only [hsite] at h
      cases hrest : samplePoints F rs fuel m k1 with
      | none => simp only [hrest] at h; exact absurd h (by simp)
      | some r2 =>
        obtain ⟨qs, k3⟩ := r2
        simp only [hrest, Option.some.injEq, Prod.mk.injEq] at h
        obtain ⟨rfl, rfl⟩ := h
        obtain ⟨hlen, hdom⟩ := ih k1 qs k3 hrest
        refine ⟨by simp [hlen], fun j hj => ?_⟩
        cases j with
        | zero =>
          simpa using sampleSiteAux_inDomain F rs hW hH hrs fuel k x y k1 hsite
        | succ j2 =>
          simp only [List.getD_cons_succ]
          exact hdom j2 (by simpa using hj)

/-- Invariant carried through the sweep: accumulated weights are nonnegative
and the coordinate sums are trapped between 0 and (dimension - 1) times the
weight sum. -/
def BoundedAcc (W H : ℕ) (s : SweepState) : Prop :=
  ∀ i, 0 ≤ s.w i ∧
    (0 ≤ s.sx i ∧ s.sx i ≤ ((W : ℚ) - 1) * s.w i) ∧
    (0 ≤ s.sy i ∧ s.sy i ≤ ((H : ℚ) - 1) * s.w i)

theorem sweep_bounds_foldl (F : Field) (pts : List (ℚ × ℚ)) :
    ∀ (locs : List (ℕ × ℕ)),
      (∀ l ∈ locs, l.1 < F.width ∧ l.2 < F.height) →
      ∀ s, BoundedAcc F.width F.height s →
        BoundedAcc F.width F.height (locs.foldl (sweepStep F pts) s) := by
  intro locs
  induction locs with
  | nil => intro _ s hs; exact hs
  | cons a t ih =>
    intro hmem s hs
    simp only [List.foldl_cons]
    refine ih (fun l hl => hmem l (by simp [hl])) _ ?_
    rw [sweepStep]
    by_cases hw : locWeight F a ≤ 0
    · rw [if_pos hw]; exact hs
    · rw [if_neg hw]
      push_neg at hw
      have hax : (a.1 : ℚ) ≤ (F.width : ℚ) - 1 := by
        have : a.1 + 1 ≤ F.width := (hmem a (by simp)).1
        have : ((a.1 : ℚ)) + 1 ≤ (F.width : ℚ) := by exact_mod_cast this
        linarith
      have hay : (a.2 : ℚ) ≤ (F.height : ℚ) - 1 := by
        have : a.2 + 1 ≤ F.height := (hmem a (by simp)).2
        have : ((a.2 : ℚ)) + 1 ≤ (F.height : ℚ) := by exact_mod_cast this
        linarith
      intro i
      set j := find pts (a.1 : ℚ) (a.2 : ℚ) s.hint with hjdef
      by_cases hij : i = j
      · obtain ⟨g1, ⟨g2, g3⟩, g4, g5⟩ := hs j
        rw [hij]
        simp only [Function.update_same]
        refine ⟨by linarith, ⟨?_, ?_⟩, ?_, ?_⟩
        · have : 0 ≤ (a.1 : ℚ) * locWeight F a :=
            mul_nonneg (by positivity) (le_of_lt hw)
          linarith
        · have : (a.1 : ℚ) * locWeight F a ≤ ((F.width : ℚ) - 1) * locWeight F a :=
            mul_le_mul_of_nonneg_right hax (le_of_lt hw)
          have hexp : ((F.width : ℚ) - 1) * (s.w j + locWeight F a) =
              ((F.width : ℚ) - 1) * s.w j + ((F.width : ℚ) - 1) * locWeight F a := by
            ring
          rw [hexp]
          linarith
        · have : 0 ≤ (a.2 : ℚ) * locWeight F a :=
            mul_nonneg (by positivity) (le_of_lt hw)
          linarith
        · have : (a.2 : ℚ) * locWeight F a ≤ ((F.height : ℚ) - 1) * locWeight F a :=
            mul_le_mul_of_nonneg_right hay (le_of_lt hw)
          have hexp : ((F.height : ℚ) - 1) * (s.w j + locWeight F a) =
              ((F.height : ℚ) - 1) * s.w j + ((F.height : ℚ) - 1) * locWeight F a := by
            ring
          rw [hexp]
          linarith
      · simp only [Function.update_noteq hij]
        exact hs i

theorem sweep_bounds (F : Field) (pts : List (ℚ × ℚ)) :
    BoundedAcc F.width F.height (sweep F pts) := by
  refine sweep_bounds_foldl F pts (rasterLocs F.width F.height)
    (fun l hl => mem_rasterLocs hl) initSweep ?_
  intro i
  simp [initSweep]

/-- C6: every iteration result has exactly one position per site, and every
position lies in [0, width) × [0, height) — the sampler only returns
in-domain positions, and one relaxation iteration preserves the in-domain
property (moved sites land at weighted averages of in-domain pixel
coordinates; stranded sites keep their in-domain position). -/
theorem c6_result_count_and_bounds (F : Field) (rs : ℕ → ℚ)
    (fuel n k : ℕ) (ps : List (ℚ × ℚ)) (k2 : ℕ) (pts : List (ℚ × ℚ))
    (hW : 1 ≤ F.width) (hH : 1 ≤ F.height)
    (hrs : ∀ m, 0 ≤ rs m ∧ rs m < 1) :
    (samplePoints F rs fuel n k = some (ps, k2) →
      ps.length = n ∧ ∀ j, j < ps.length → inDomain F (ps.getD j (0, 0))) ∧
    ((∀ j, j < pts.length → inDomain F (pts.getD j (0, 0))) →
      (animateIteration F pts).1.length = pts.length ∧
      ∀ j, j < pts.length → inDomain F ((animateIteration F pts).1.getD j (0, 0))) := by
  constructor
  · intro h
    exact samplePoints_spec F rs fuel hW hH hrs n k ps k2 h
  · intro hdom
    refine ⟨by simp [animateIteration], fun j hj => ?_⟩
    have hget : (animateIteration F pts).1.getD j (0, 0) =
        relaxSite (sweep F pts) j (pts.getD j (0, 0)) := by
      rw [animateIteration]
      exact getD_map_range _ _ hj
    rw [hget, relaxSite]
    by_cases hw : 0 < (sweep F pts).w j
    · rw [if_pos hw]
      obtain ⟨h1, ⟨h2, h3⟩, h4, h5⟩ := sweep_bounds F pts j
      have hWq : (1 : ℚ) ≤ (F.width : ℚ) := by exact_mod_cast hW
      have hHq : (1 : ℚ) ≤ (F.height : ℚ) := by exact_mod_cast hH
      refine ⟨div_nonneg h2 h1, ?_, div_nonneg h4 h1, ?_⟩
      · have : (sweep F pts).sx j / (sweep F pts).w j ≤ (F.width : ℚ) - 1 :=
          (div_le_iff₀ hw).mpr (by linarith)
        linarith
      · have : (sweep F pts).sy j / (sweep F pts).w j ≤ (F.height : ℚ) - 1 :=
          (div_le_iff₀ hw).mpr (by linarith)
        linarith
    · rw [if_neg hw]
      exact hdom j hj

theorem c6_result_count_and_bounds_witness :
    (animateIteration onesField2 [((1 : ℚ), (1 : ℚ))]).1.length = 1 := by
  have h := (c6_result_count_and_bounds onesField2 halfStream 1 1 0
    [((1 : ℚ), (1 : ℚ))] 3 [((1 : ℚ), (1 : ℚ))]
    (by norm_num [onesField2]) (by norm_num [onesField2])
    (fun m => ⟨by norm_num [halfStream], by norm_num [halfStream]⟩)).2
  have hdom : ∀ j, j < ([((1 : ℚ), (1 : ℚ))] : List (ℚ × ℚ)).length →
      inDomain onesField2 (([((1 : ℚ), (1 : ℚ))] : List (ℚ × ℚ)).getD j (0, 0)) := by
    intro j hj
    have hj1 : j = 0 := by simpa using hj
    subst hj1
    norm_num [inDomain, onesField2]
  simpa using (h hdom).1

/-! Skipping zero-weight pixels is a pure optimization. -/

theorem sweep_skip_foldl (F : Field) (pts : List (ℚ × ℚ))
    (hd : ∀ i, 0 ≤ F.density i) :
    ∀ (locs : List (ℕ × ℕ)) (s t : SweepState),
      s.sx = t.sx → s.sy = t.sy → s.w = t.w →
      (locs.foldl (sweepStep F pts) s).sx = (locs.foldl (sweepStepFull F pts) t).sx ∧
      (locs.foldl (sweepStep F pts) s).sy = (locs.foldl (sweepStepFull F pts) t).sy ∧
      (locs.foldl (sweepStep F pts) s).w = (locs.foldl (sweepStepFull F pts) t).w := by
  intro locs
  induction locs with
  | nil => intro s t h1 h2 h3; exact ⟨h1, h2, h3⟩
  | cons a l ih =>
    intro s t h1 h2 h3
    simp only [List.foldl_cons]
    by_cases hw : locWeight F a ≤ 0
    · have hw0 : locWeight F a = 0 := le_antisymm hw (hd _)
      rw [sweepStep, if_pos hw]
      refine ih s (sweepStepFull F pts t a) ?_ ?_ ?_
      · rw [sweepStepFull]
        simp only [hw0, mul_zero, add_zero, Function.update_eq_self]
        exact h1
      · rw [sweepStepFull]
        simp only [hw0, mul_zero, add_zero, Function.update_eq_self]
        exact h2
      · rw [sweepStepFull]
        simp only [hw0, add_zero, Function.update_eq_self]
        exact h3
    · rw [sweepStep, if_neg hw]
      have hfind : find pts (a.1 : ℚ) (a.2 : ℚ) s.hint =
          find pts (a.1 : ℚ) (a.2 : ℚ) t.hint := rfl
      refine ih _ (sweepStepFull F pts t a) ?_ ?_ ?_
      · rw [sweepStepFull]
        simp only [hfind, h1]
      · rw [sweepStepFull]
        simp only [hfind, h2]
      · rw [sweepStepFull]
        simp only [hfind, h3]

/-- C7: skipping zero-weight locations (without advancing the hint there) is
a pure optimization — for every field with nonnegative weights and every
site list, the skipping sweep of the source produces exactly the same
per-site position-sums and weight-sums as the sweep that visits every
location. -/
theorem c7_skip_is_pure_optimization (F : Field) (pts : List (ℚ × ℚ))
    (hd : ∀ i, 0 ≤ F.density i) :
    (sweep F pts).sx = (sweepFull F pts).sx ∧
    (sweep F pts).sy = (sweepFull F pts).sy ∧
    (sweep F pts).w = (sweepFull F pts).w := by
  rw [sweep, sweepFull]
  exact sweep_skip_foldl F pts hd (rasterLocs F.width F.height)
    initSweep initSweep rfl rfl rfl

theorem c7_skip_is_pure_optimization_witness :
    (sweep onesField2 [((0 : ℚ), (0 : ℚ)), ((1 : ℚ), (1 : ℚ))]).w =
      (sweepFull onesField2 [((0 : ℚ), (0 : ℚ)), ((1 : ℚ), (1 : ℚ))]).w :=
  (c7_skip_is_pure_optimization onesField2 [((0 : ℚ), (0 : ℚ)), ((1 : ℚ), (1 : ℚ))]
    (fun _ => by norm_num [onesField2])).2.2

/-! The source accepts N ≤ 0 without any validation. -/

/-- C8 counterexample: calling start with N = 0 on a loaded 2×2 image does
not fail fast — an (empty) SiteSet is created, isRunning is set, and a next
frame is scheduled, contradicting the claim that no run begins. -/
theorem c8_counterexample :
    startSimulation onesField2 0 halfStream 1 =
      some { points := [], isRunning := true, scheduledNext := true } := rfl

/-- C8 amended: start performs no validation of N — whenever an image is
loaded, a call with N ≤ 0 runs the sampling loop zero times, installs an
empty SiteSet, sets the running flag and schedules iterations; no error is
reported to the caller. -/
theorem c8_nonpositive_count_starts_run (F : Field) (n : ℤ) (rs : ℕ → ℚ)
    (fuel : ℕ) (hW : F.width ≠ 0) (hH : F.height ≠ 0) (hn : n ≤ 0) :
    startSimulation F n rs fuel =
      some { points := [], isRunning := true, scheduledNext := true } := by
  rw [startSimulation, if_neg (by simp [hW, hH]), Int.toNat_of_nonpos hn]
  rfl

theorem c8_nonpositive_count_starts_run_witness :
    startSimulation onesField2 (-3) halfStream 2 =
      some { points := [], isRunning := true, scheduledNext := true } :=
  c8_nonpositive_count_starts_run onesField2 (-3) halfStream 2
    (by norm_num [onesField2]) (by norm_num [onesField2]) (by norm_num)

/-! The cancellation protocol never lets a stale frame run. -/

/-- C9: in every reachable scheduler state, the pending animation frame (if
any) is the one scheduled by the current run and recorded in animationId, so
a startSimulation call that finds a frame of the previous run scheduled
always cancels it; consequently every frame that ever fired — and hence
every iteration that emitted a result or mutated the site array — belonged
to the run current at that moment: a stale iteration never emits and never
touches the new run's SiteSet. -/
theorem c9_no_stale_iteration (s : DriverState) (h : DriverReachable s) :
    (∀ p ∈ s.fired, p.1 = p.2) ∧
    (∀ i t, s.pending = some (i, t) → t = s.gen ∧ i = s.animationId) ∧
    (s.pending = none ∨ s.isRunning = true) := by
  induction h with
  | init =>
    refine ⟨by simp [initDriver], ?_, Or.inl rfl⟩
    intro i t hp
    exact absurd hp (by simp [initDriver])
  | step h e ih =>
    obtain ⟨ih1, ih2, ih3⟩ := ih
    cases e with
    | startCall =>
      simp only [driverStep, animateSchedule, if_pos]
      refine ⟨ih1, ?_, Or.inr (by simp)⟩
      intro i t hp
      simp only [Option.some.injEq, Prod.mk.injEq] at hp
      exact ⟨hp.2.symm, hp.1.symm⟩
    | frameFire =>
      rename_i s0
      cases hp : s0.pending with
      | none =>
        simp only [driverStep, hp]
        refine ⟨ih1, ?_, by simp⟩
        intro i t hq
        exact absurd hq (by simp)
      | some q =>
        obtain ⟨i0, t0⟩ := q
        have hrun : s0.isRunning = true := by
          rcases ih3 with h3 | h3
          · rw [hp] at h3; exact absurd h3 (by simp)
          · exact h3
        have ht0 : t0 = s0.gen := (ih2 i0 t0 hp).1
        simp only [driverStep, hp, animateSchedule, hrun, if_pos]
        refine ⟨?_, ?_, Or.inr (by simp)⟩
        · intro p hmem
          simp only [List.mem_append, List.mem_singleton] at hmem
          rcases hmem with hmem | hmem
          · exact ih1 p hmem
          · rw [hmem, ht0]
        · intro i t hq
          simp only [Option.some.injEq, Prod.mk.injEq] at hq
          exact ⟨hq.2.symm, hq.1.symm⟩

theorem c9_no_stale_iteration_witness :
    (driverStep (driverStep initDriver DriverEvent.startCall)
        DriverEvent.frameFire).fired.all (fun p => decide (p.1 = p.2)) = true := by
  rw [List.all_eq_true]
  intro p hp
  rw [decide_eq_true_eq]
  exact (c9_no_stale_iteration
    (driverStep (driverStep initDriver DriverEvent.startCall) DriverEvent.frameFire)
    (DriverReachable.step (DriverReachable.step DriverReachable.init
      DriverEvent.startCall) DriverEvent.frameFire)).1 p hp

/-! Every density read is in bounds. -/

theorem index_lt {a b W H : ℕ} (ha : a < W) (hb : b < H) :
    b * W + a < W * H := by
  calc b * W + a < b * W + W := by omega
    _ = (b + 1) * W := by ring
    _ ≤ H * W := Nat.mul_le_mul_right W (by omega)
    _ = W * H := Nat.mul_comm H W

/-- C10: implicit indexing safety — during rejection sampling the index
floor(y)·width + floor(x) computed from draws x ∈ [0, width), y ∈ [0, height)
lies below width·height, and during the accumulator sweep the index
y·width + x of every raster location lies below width·height. -/
theorem c10_density_reads_in_bounds (F : Field) (x y : ℚ) (l : ℕ × ℕ)
    (hW : 1 ≤ F.width) (hH : 1 ≤ F.height)
    (hx : 0 ≤ x ∧ x < (F.width : ℚ)) (hy : 0 ≤ y ∧ y < (F.height : ℚ))
    (hl : l ∈ rasterLocs F.width F.height) :
    sampleIdx F x y < F.width * F.height ∧
    l.2 * F.width + l.1 < F.width * F.height := by
  constructor
  · rw [sampleIdx]
    have h1 : ⌊x⌋ < (F.width : ℤ) := Int.floor_lt.mpr (by exact_mod_cast hx.2)
    have h2 : ⌊y⌋ < (F.height : ℤ) := Int.floor_lt.mpr (by exact_mod_cast hy.2)
    have hfx : (⌊x⌋).toNat < F.width := by omega
    have hfy : (⌊y⌋).toNat < F.height := by omega
    exact index_lt hfx hfy
  · obtain ⟨h1, h2⟩ := mem_rasterLocs hl
    exact index_lt h1 h2

theorem c10_density_reads_in_bounds_witness :
    sampleIdx onesField2 ((1 : ℚ) / 2) ((3 : ℚ) / 2) <
        onesField2.width * onesField2.height ∧
      (1 : ℕ) * onesField2.width + 1 < onesField2.width * onesField2.height :=
  c10_density_reads_in_bounds onesField2 ((1 : ℚ) / 2) ((3 : ℚ) / 2) (1, 1)
    (by norm_num [onesField2]) (by norm_num [onesField2])
    (by constructor <;> norm_num [onesField2])
    (by constructor <;> norm_num [onesField2])
    (by decide)

end Stippling
